import Mathlib

/-!
Verification development for the Meeting-Bridge peer-to-peer translation app.

The definitions below are a shallow embedding of the floor-control protocol,
leader election, wire encoding, playback scheduling and resampling code:

* `ControlSignal`, `ControlPayload`, `RoomState` mirror `src/types/schema.ts`;
* `handleControlSignal`, `handlePeerLeave` mirror the `CONTROL_SIGNAL` branch
  of `handleIncomingEvent` and the `onPeerLeave` handler in the app store;
* `handlePeerDiscovery` mirrors `NetworkService._handlePeerDiscovery`;
* the base64 helpers mirror `float32ToBase64` / `base64ToFloat32`;
* `playAudioQueue` mirrors `AudioService.playAudioQueue`;
* `downsampleBuffer` mirrors the resampling helper of `AudioService`.

Numbers that are IEEE doubles in the source are modelled as rationals, and
32-bit float samples as their 32-bit patterns (naturals below 2^32), since the
encoding layer treats them as opaque 4-byte groups.
-/

namespace MeetingBridge

/-- Control signals of the wire schema (`ControlSignal` in `schema.ts`), plus
the `HEARTBEAT` string literal that `NetworkService._startHeartbeat` sends
outside the enum. -/
inductive ControlSignal
  | REQUEST_TOKEN
  | RELEASE_TOKEN
  | GRANT_TOKEN
  | MUTE_PEER
  | KICK_PEER
  | HEARTBEAT
  deriving DecidableEq

/-- `ControlPayload` of `schema.ts`: a signal and an optional target peer id. -/
structure ControlPayload where
  signal : ControlSignal
  targetPeerId : Option String := none
  deriving DecidableEq

/-- The slice of `RoomState` (`schema.ts`) that floor control touches: the
elected host, the current speaker, and the ids in the `peers` map. -/
structure RoomState where
  hostId : String
  speakerId : Option String
  peers : List String
  deriving DecidableEq

/-- JavaScript `x || fallback` on a `string | undefined` value: `undefined`
and the empty string are falsy, so both select the fallback. -/
def jsStrOr (x : Option String) (fallback : String) : String :=
  match x with
  | some s => if s = "" then fallback else s
  | none => fallback

/-- JavaScript `x || null` on a `string | undefined` value: `undefined` and
the empty string both give `null`. -/
def jsStrOrNull (x : Option String) : Option String :=
  match x with
  | some s => if s = "" then none else some s
  | none => none

/-- The `CONTROL_SIGNAL` branch of `handleIncomingEvent` in the app store:
given the local id, the room state, the control payload and its sender,
return the updated room state and the list of control payloads broadcast in
response (the host's `GRANT_TOKEN` answer to a `REQUEST_TOKEN`). -/
def handleControlSignal (myId : String) (st : RoomState) (payload : ControlPayload)
    (senderId : String) : RoomState × List ControlPayload :=
  match payload.signal with
  | ControlSignal.REQUEST_TOKEN =>
      if myId = st.hostId then
        let granteeId := jsStrOr payload.targetPeerId senderId
        ({ st with speakerId := some granteeId },
         [{ signal := ControlSignal.GRANT_TOKEN, targetPeerId := some granteeId }])
      else (st, [])
  | ControlSignal.GRANT_TOKEN =>
      ({ st with speakerId := jsStrOrNull payload.targetPeerId }, [])
  | ControlSignal.RELEASE_TOKEN =>
      ({ st with speakerId := none }, [])
  | _ => (st, [])

/-- The `onPeerLeave` handler registered in the app store: drop the peer from
the map and clear `speakerId` exactly when the departing peer was the
speaker. -/
def handlePeerLeave (st : RoomState) (peerId : String) : RoomState :=
  { st with
    peers := st.peers.erase peerId,
    speakerId := if st.speakerId = some peerId then none else st.speakerId }

/-- An inbound step of the session coordinator: either a control event
dispatched through `handleIncomingEvent`, or a peer-leave presence
change. -/
inductive CoordEvent
  | control (payload : ControlPayload) (senderId : String)
  | peerLeave (peerId : String)

/-- Apply one inbound coordinator event to the room state. -/
def coordStep (myId : String) (st : RoomState) (e : CoordEvent) : RoomState :=
  match e with
  | CoordEvent.control payload senderId => (handleControlSignal myId st payload senderId).1
  | CoordEvent.peerLeave peerId => handlePeerLeave st peerId

/-- Apply a whole sequence of inbound coordinator events. -/
def coordRun (myId : String) (st : RoomState) (es : List CoordEvent) : RoomState :=
  es.foldl (coordStep myId) st

/-- `NetworkService._handlePeerDiscovery`: take the known peer ids, return
without emitting if there are none, otherwise sort them ascending and emit
the first as the host via the host-changed callback.  The returned option is
the id passed to the callback (`none` = no emission). -/
def handlePeerDiscovery (peers : List String) : Option String :=
  if peers.length = 0 then none
  else (peers.mergeSort (fun a b => a ≤ b)).head?

/-- The host-changed emissions produced by a history of peer sets, one
`_handlePeerDiscovery` run per presence change. -/
def discoveryEmissions (history : List (List String)) : List String :=
  history.filterMap handlePeerDiscovery

/-- The head of the sorted peer list is a member and a lower bound. -/
theorem head_mergeSort_min (l : List String) (m : String)
    (h : (l.mergeSort (fun a b => a ≤ b)).head? = some m) :
    m ∈ l ∧ ∀ x ∈ l, m ≤ x := by
  have hperm : (l.mergeSort (fun a b => a ≤ b)).Perm l := List.mergeSort_perm l _
  have hsorted :
      List.Pairwise (fun a b : String => (fun a b => decide (a ≤ b)) a b = true)
        (l.mergeSort (fun a b => decide (a ≤ b))) :=
    List.sorted_mergeSort
      (by intro a b c hab hbc
          simp only [decide_eq_true_eq] at hab hbc ⊢
          exact le_trans hab hbc)
      (by intro a b
          simp only [Bool.or_eq_true, decide_eq_true_eq]
          exact le_total a b)
      l
  cases hs : l.mergeSort (fun a b => a ≤ b) with
  | nil => rw [hs] at h; cases h
  | cons y t =>
      rw [hs] at h hperm hsorted
      have hy : y = m := by simpa using h
      subst hy
      constructor
      · exact hperm.mem_iff.mp (List.mem_cons_self y t)
      · intro x hx
        have hx' : x ∈ y :: t := hperm.mem_iff.mpr hx
        rcases List.mem_cons.mp hx' with hxy | hxt
        · exact le_of_eq hxy.symm
        · have := (List.pairwise_cons.mp hsorted).1 x hxt
          simpa [decide_eq_true_eq] using this

/-- C3: on any non-empty list of known peer ids, the election emits the
lexicographically smallest id, and any other list with the same members
(any insertion order, any repetition) yields the same host; re-running on
the same set is idempotent. -/
theorem election_lexmin (l : List String) (hne : l ≠ []) :
    ∃ m, handlePeerDiscovery l = some m ∧ m ∈ l ∧ (∀ x ∈ l, m ≤ x) ∧
      ∀ l', l' ≠ [] → (∀ x, x ∈ l' ↔ x ∈ l) → handlePeerDiscovery l' = some m := by
  have hmin : ∀ (l₀ : List String), l₀ ≠ [] →
      ∃ m, handlePeerDiscovery l₀ = some m ∧ m ∈ l₀ ∧ ∀ x ∈ l₀, m ≤ x := by
    intro l₀ h₀
    have hlen : l₀.length ≠ 0 := fun h => h₀ (List.length_eq_zero.mp h)
    have hperm : (l₀.mergeSort (fun a b => a ≤ b)).Perm l₀ := List.mergeSort_perm l₀ _
    have hne' : l₀.mergeSort (fun a b => a ≤ b) ≠ [] := by
      intro h
      rw [h] at hperm
      exact h₀ hperm.symm.eq_nil
    obtain ⟨m, hm⟩ := Option.ne_none_iff_exists'.mp
      (fun h => hne' (List.head?_eq_none_iff.mp h))
    obtain ⟨hmem, hlb⟩ := head_mergeSort_min l₀ m hm
    refine ⟨m, ?_, hmem, hlb⟩
    unfold handlePeerDiscovery
    rw [if_neg hlen]
    exact hm
  obtain ⟨m, hrun, hmem, hlb⟩ := hmin l hne
  refine ⟨m, hrun, hmem, hlb, ?_⟩
  intro l' hne' hiff
  obtain ⟨m', hrun', hmem', hlb'⟩ := hmin l' hne'
  have h₁ : m ≤ m' := hlb m' ((hiff m').mp hmem')
  have h₂ : m' ≤ m := hlb' m ((hiff m).mpr hmem)
  rw [hrun', le_antisymm h₂ h₁]

/-- C3 witness: on the concrete peer list `["b", "a"]` the election emits a
host that is a member and a lower bound, stable under reordering. -/
theorem election_lexmin_witness :
    (["b", "a"] : List String) ≠ [] ∧
      ∃ m, handlePeerDiscovery ["b", "a"] = some m ∧ m ∈ (["b", "a"] : List String) ∧
        (∀ x ∈ (["b", "a"] : List String), m ≤ x) ∧
        ∀ l', l' ≠ [] → (∀ x, x ∈ l' ↔ x ∈ (["b", "a"] : List String)) →
          handlePeerDiscovery l' = some m :=
  ⟨by decide, election_lexmin ["b", "a"] (by decide)⟩

/-- C4: the code notifies the host-changed callback on every election run,
not only when the host changes: starting from the singleton set `{"a"}` and
re-running after `"b"` joins (host still `"a"`), two notifications are
emitted, both carrying `"a"` — the claimed change-only emission fails. -/
theorem host_changed_emitted_every_run :
    discoveryEmissions [["a"], ["a", "b"]] = ["a", "a"] := by
  have h1 : handlePeerDiscovery ["a"] = some "a" := by
    simp [handlePeerDiscovery, List.mergeSort]
  have h2 : handlePeerDiscovery ["a", "b"] = some "a" := by
    simp [handlePeerDiscovery, List.mergeSort, List.merge]
    decide
  simp [discoveryEmissions, h1, h2]

/-- C1: after any sequence of inbound control events and peer-leave
notifications, `RoomState.speakerId` is either null or exactly one peer id;
no reachable state records two simultaneously granted speakers. -/
theorem single_speaker_invariant (myId : String) (st0 : RoomState)
    (es : List CoordEvent) :
    (coordRun myId st0 es).speakerId = none ∨
      ∃! p : String, (coordRun myId st0 es).speakerId = some p := by
  cases h : (coordRun myId st0 es).speakerId with
  | none => exact Or.inl rfl
  | some p =>
      exact Or.inr ⟨p, rfl, fun q hq => (Option.some_inj.mp hq).symm⟩

/-- C2: a `REQUEST_TOKEN` control event processed by a peer whose local id is
not the host id leaves the room state unchanged and broadcasts nothing. -/
theorem non_host_ignores_request (myId senderId : String) (st : RoomState)
    (payload : ControlPayload) (hsig : payload.signal = ControlSignal.REQUEST_TOKEN)
    (hhost : myId ≠ st.hostId) :
    handleControlSignal myId st payload senderId = (st, []) := by
  simp [handleControlSignal, hsig, hhost]

/-- C2 witness: a non-host peer `"b"` in a room hosted by `"a"` ignores a
request from `"b"`. -/
theorem non_host_ignores_request_witness :
    handleControlSignal "b" ⟨"a", none, ["a", "b"]⟩
        ⟨ControlSignal.REQUEST_TOKEN, some "b"⟩ "b" =
      (⟨"a", none, ["a", "b"]⟩, []) :=
  non_host_ignores_request "b" "b" _ _ rfl (by decide)

/-- C5: a peer-leave step clears `speakerId` exactly when the departing peer
was the current speaker, with no release event involved; otherwise the
speaker is unchanged. -/
theorem peer_leave_clears_speaker (myId : String) (st : RoomState) (peerId : String) :
    (coordStep myId st (CoordEvent.peerLeave peerId)).speakerId =
      if st.speakerId = some peerId then none else st.speakerId := rfl

/-- C10: a `GRANT_TOKEN` control event whose payload omits `targetPeerId`
sets `speakerId` to null (a target-less grant acts as a release). -/
theorem targetless_grant_clears_speaker (myId senderId : String) (st : RoomState)
    (payload : ControlPayload) (hsig : payload.signal = ControlSignal.GRANT_TOKEN)
    (htgt : payload.targetPeerId = none) :
    (handleControlSignal myId st payload senderId).1.speakerId = none := by
  simp [handleControlSignal, hsig, htgt, jsStrOrNull]

/-- C10 witness: a target-less grant received by `"b"` clears the speaker. -/
theorem targetless_grant_clears_speaker_witness :
    (handleControlSignal "b" ⟨"a", some "c", ["a", "b", "c"]⟩
        ⟨ControlSignal.GRANT_TOKEN, none⟩ "a").1.speakerId = none :=
  targetless_grant_clears_speaker "b" "a" _ _ rfl rfl

/-- The standard base64 alphabet used by the platform `btoa`/`atob` pair. -/
def b64Alphabet : List Char :=
  "ABCDEFGHIJKLMNOPQRSTUVWXYZabcdefghijklmnopqrstuvwxyz0123456789+/".toList

/-- The base64 character of a sextet value. -/
def b64Char (n : Nat) : Char := b64Alphabet.getD n '='

/-- The sextet value of a base64 character, if any. -/
def b64Index (c : Char) : Option Nat := b64Alphabet.indexOf? c

/-- Modelled platform builtin: `btoa` applied to the binary string that
`float32ToBase64` builds with `String.fromCharCode` — standard base64 over
the byte values, three bytes to four characters, `=`-padded. -/
def btoaBytes : List Nat → List Char
  | [] => []
  | [a] =>
      let n := a * 65536
      [b64Char (n / 262144), b64Char (n / 4096 % 64), '=', '=']
  | [a, b] =>
      let n := a * 65536 + b * 256
      [b64Char (n / 262144), b64Char (n / 4096 % 64), b64Char (n / 64 % 64), '=']
  | a :: b :: c :: rest =>
      let n := a * 65536 + b * 256 + c
      b64Char (n / 262144) :: b64Char (n / 4096 % 64) :: b64Char (n / 64 % 64) ::
        b64Char (n % 64) :: btoaBytes rest

/-- Modelled platform builtin: `atob`, decoding four base64 characters at a
time back to bytes and failing on malformed input. -/
def atobChars : List Char → Option (List Nat)
  | [] => some []
  | c1 :: c2 :: c3 :: c4 :: rest =>
      (match b64Index c1, b64Index c2 with
      | some v1, some v2 =>
          if c3 = '=' then
            if c4 = '=' ∧ rest = [] then
              some [(v1 * 262144 + v2 * 4096) / 65536]
            else none
          else
            (match b64Index c3 with
            | some v3 =>
                if c4 = '=' then
                  if rest = [] then
                    let n := v1 * 262144 + v2 * 4096 + v3 * 64
                    some [n / 65536, n / 256 % 256]
                  else none
                else
                  (match b64Index c4, atobChars rest with
                  | some v4, some bs =>
                      let n := v1 * 262144 + v2 * 4096 + v3 * 64 + v4
                      some (n / 65536 :: n / 256 % 256 :: n % 256 :: bs)
                  | _, _ => none)
            | none => none)
      | _, _ => none)
  | _ => none

/-- Little-endian byte layout of one 32-bit sample pattern, as produced by
the `Uint8Array` view on the `Float32Array` buffer in `float32ToBase64`. -/
def bytesOfWord (w : Nat) : List Nat :=
  [w % 256, w / 256 % 256, w / 65536 % 256, w / 16777216 % 256]

/-- Rebuild the 32-bit patterns from the little-endian byte string, as the
`Float32Array` view on the rebuilt buffer does in `base64ToFloat32`. -/
def wordsOfBytes : List Nat → List Nat
  | b0 :: b1 :: b2 :: b3 :: rest =>
      (b0 + b1 * 256 + b2 * 65536 + b3 * 16777216) :: wordsOfBytes rest
  | _ => []

/-- `float32ToBase64` in the app store: lay the samples out as raw
little-endian bytes and base64-encode them. -/
def float32ToBase64 (samples : List Nat) : List Char :=
  btoaBytes (samples.flatMap bytesOfWord)

/-- `base64ToFloat32` in the app store: decode the base64 text and view the
byte buffer as 32-bit float patterns. -/
def base64ToFloat32 (s : List Char) : Option (List Nat) :=
  (atobChars s).map wordsOfBytes

/-- Decoding a base64 character produced from a sextet recovers the sextet. -/
theorem b64Index_b64Char : ∀ n, n < 64 → b64Index (b64Char n) = some n := by decide

/-- Characters produced from sextets are never the padding character. -/
theorem b64Char_ne_pad : ∀ n, n < 64 → b64Char n ≠ '=' := by decide

/-- `atob` is a left inverse of `btoa` on byte strings. -/
theorem atobChars_btoaBytes (bs : List Nat) (h : ∀ b ∈ bs, b < 256) :
    atobChars (btoaBytes bs) = some bs := by
  induction bs using btoaBytes.induct with
  | case1 => rfl
  | case2 a =>
      have ha : a < 256 := h a (by simp)
      have h1 : a * 65536 / 262144 < 64 := by omega
      have h2 : a * 65536 / 4096 % 64 < 64 := by omega
      simp only [btoaBytes, atobChars,
        b64Index_b64Char _ h1, b64Index_b64Char _ h2]
      simp only [if_true, and_self, Option.some.injEq, List.cons.injEq, and_true]
      omega
  | case3 a b =>
      have ha : a < 256 := h a (by simp)
      have hb : b < 256 := h b (by simp)
      have h1 : (a * 65536 + b * 256) / 262144 < 64 := by omega
      have h2 : (a * 65536 + b * 256) / 4096 % 64 < 64 := by omega
      have h3 : (a * 65536 + b * 256) / 64 % 64 < 64 := by omega
      simp only [btoaBytes, atobChars,
        b64Index_b64Char _ h1, b64Index_b64Char _ h2, b64Index_b64Char _ h3,
        if_neg (b64Char_ne_pad _ h3)]
      simp only [if_true, Option.some.injEq, List.cons.injEq, and_true]
      omega
  | case4 a b c rest ih =>
      have ha : a < 256 := h a (by simp)
      have hb : b < 256 := h b (by simp)
      have hc : c < 256 := h c (by simp)
      have hrest : ∀ x ∈ rest, x < 256 := fun x hx => h x (by simp [hx])
      have h1 : (a * 65536 + b * 256 + c) / 262144 < 64 := by omega
      have h2 : (a * 65536 + b * 256 + c) / 4096 % 64 < 64 := by omega
      have h3 : (a * 65536 + b * 256 + c) / 64 % 64 < 64 := by omega
      have h4 : (a * 65536 + b * 256 + c) % 64 < 64 := by omega
      simp only [btoaBytes, atobChars,
        b64Index_b64Char _ h1, b64Index_b64Char _ h2, b64Index_b64Char _ h3,
        b64Index_b64Char _ h4,
        if_neg (b64Char_ne_pad _ h3), if_neg (b64Char_ne_pad _ h4), ih hrest]
      simp only [Option.some.injEq, List.cons.injEq, and_true]
      refine ⟨by omega, by omega, by omega⟩

/-- Every byte of the little-endian sample layout is below 256. -/
theorem bytesOfWord_lt (ws : List Nat) : ∀ b ∈ ws.flatMap bytesOfWord, b < 256 := by
  intro b hb
  rw [List.mem_flatMap] at hb
  obtain ⟨w, _, hw⟩ := hb
  simp only [bytesOfWord, List.mem_cons, List.not_mem_nil, or_false] at hw
  rcases hw with h | h | h | h <;> omega

/-- Regrouping the little-endian bytes recovers the 32-bit patterns. -/
theorem wordsOfBytes_bytesOfWord (ws : List Nat) (h : ∀ w ∈ ws, w < 4294967296) :
    wordsOfBytes (ws.flatMap bytesOfWord) = ws := by
  induction ws with
  | nil => rfl
  | cons w ws ih =>
      have hw : w < 4294967296 := h w (by simp)
      have hws : ∀ x ∈ ws, x < 4294967296 := fun x hx => h x (by simp [hx])
      simp only [List.flatMap_cons, bytesOfWord, List.cons_append, List.nil_append,
        wordsOfBytes, List.cons.injEq]
      refine ⟨by omega, ?_⟩
      simpa [List.flatMap] using ih hws

/-- C6: decoding the wire payload produced by encoding any finite 32-bit
float sample sequence yields the original sequence bit-exactly. -/
theorem encode_decode_roundtrip (samples : List Nat)
    (h : ∀ s ∈ samples, s < 4294967296) :
    base64ToFloat32 (float32ToBase64 samples) = some samples := by
  unfold base64ToFloat32 float32ToBase64
  rw [atobChars_btoaBytes _ (bytesOfWord_lt samples), Option.map_some',
    wordsOfBytes_bytesOfWord samples h]

/-- C6 witness: the bit patterns of 0.0, 1.0 and -1.0 survive the round
trip. -/
theorem encode_decode_roundtrip_witness :
    (∀ s ∈ ([0, 1065353216, 3212836864] : List Nat), s < 4294967296) ∧
      base64ToFloat32 (float32ToBase64 [0, 1065353216, 3212836864]) =
        some [0, 1065353216, 3212836864] :=
  ⟨by decide, encode_decode_roundtrip [0, 1065353216, 3212836864] (by decide)⟩

/-- One playback frame as `AudioService.playAudioQueue` sees it: the sample
count of the decoded buffer, the payload's declared sample rate, and the
output clock value `currentTime` when the frame arrives. -/
structure Frame where
  sampleCount : Nat
  sampleRate : ℚ
  now : ℚ

/-- `AudioService.playAudioQueue`, state-passing form over the cursor
`nextStartTime`: reset the cursor to `now + jitterLatency` when it has
fallen behind the clock, start the source at the cursor, then advance the
cursor by the buffer duration `sampleCount / sampleRate`. Returns the start
time and the new cursor. -/
def playAudioQueue (jitterLatency nextStartTime : ℚ) (f : Frame) : ℚ × ℚ :=
  let cursor := if nextStartTime < f.now then f.now + jitterLatency else nextStartTime
  (cursor, cursor + (f.sampleCount : ℚ) / f.sampleRate)

/-- Run `playAudioQueue` over a frame sequence, recording for each frame its
scheduled start time, its duration, and whether the underrun reset fired. -/
def scheduleFrames (jitterLatency nextStartTime : ℚ) : List Frame → List (ℚ × ℚ × Bool)
  | [] => []
  | f :: fs =>
      let p := playAudioQueue jitterLatency nextStartTime f
      (p.1, (f.sampleCount : ℚ) / f.sampleRate, decide (nextStartTime < f.now)) ::
        scheduleFrames jitterLatency p.2 fs

/-- The first scheduled start of a run is never before the initial cursor
when the configured jitter latency is nonnegative. -/
theorem scheduleFrames_head_ge (j c : ℚ) (hj : 0 ≤ j) (fs : List Frame)
    (x : ℚ × ℚ × Bool) (hx : (scheduleFrames j c fs).head? = some x) : c ≤ x.1 := by
  cases fs with
  | nil => cases hx
  | cons f fs =>
      simp only [scheduleFrames, List.head?_cons, Option.some.injEq] at hx
      subst hx
      simp only [playAudioQueue]
      by_cases h : c < f.now
      · rw [if_pos h]
        have : c ≤ f.now := le_of_lt h
        linarith
      · rw [if_neg h]

/-- C7: for any frame sequence and nonnegative jitter latency, every
scheduled start time is at least the previous start plus the previous
duration, and whenever the underrun reset fires the frame starts no earlier
than `now + jitterLatency`. -/
theorem jitter_scheduler_monotonic (j c : ℚ) (hj : 0 ≤ j) (fs : List Frame) :
    List.Chain' (fun p q : ℚ × ℚ × Bool => p.1 + p.2.1 ≤ q.1)
        (scheduleFrames j c fs) ∧
      ∀ p ∈ (scheduleFrames j c fs).zip fs,
        p.1.2.2 = true → p.2.now + j ≤ p.1.1 := by
  induction fs generalizing c with
  | nil => exact ⟨List.chain'_nil, by simp [scheduleFrames]⟩
  | cons f fs ih =>
      obtain ⟨ihchain, ihreset⟩ := ih (playAudioQueue j c f).2
      constructor
      · rw [scheduleFrames, List.chain'_cons']
        refine ⟨?_, ihchain⟩
        intro q hq
        have := scheduleFrames_head_ge j (playAudioQueue j c f).2 hj fs q hq
        simpa [playAudioQueue] using this
      · intro p hp hflag
        rw [scheduleFrames] at hp
        rcases List.mem_cons.mp (by simpa using hp) with h | h
        · subst h
          simp only [decide_eq_true_eq] at hflag
          simp only [playAudioQueue, if_pos hflag]
          exact le_rfl
        · exact ihreset p h hflag

/-- C7 witness: two 0.1 s frames arriving with the clock at 10 s and the
cursor at 0 (underrun) keep starts monotone and respect the jitter reset. -/
theorem jitter_scheduler_monotonic_witness :
    (0 : ℚ) ≤ 1 / 20 ∧
      (List.Chain' (fun p q : ℚ × ℚ × Bool => p.1 + p.2.1 ≤ q.1)
          (scheduleFrames (1 / 20) 0
            ([⟨4800, 48000, 10⟩, ⟨4800, 48000, 10⟩] : List Frame)) ∧
        ∀ p ∈ (scheduleFrames (1 / 20) 0
              ([⟨4800, 48000, 10⟩, ⟨4800, 48000, 10⟩] : List Frame)).zip
            ([⟨4800, 48000, 10⟩, ⟨4800, 48000, 10⟩] : List Frame),
          p.1.2.2 = true → p.2.now + 1 / 20 ≤ p.1.1) :=
  ⟨by norm_num,
    jitter_scheduler_monotonic (1 / 20) 0 (by norm_num)
      ([⟨4800, 48000, 10⟩, ⟨4800, 48000, 10⟩] : List Frame)⟩

/-- JavaScript `buffer[i] || fallback` on a `Float32Array`: an out-of-range
read is `undefined` and a stored `0` is falsy, so both select the
fallback. -/
def jsIndexOr (buffer : List ℚ) (i : Nat) (fallback : ℚ) : ℚ :=
  match buffer[i]? with
  | some v => if v = 0 then fallback else v
  | none => fallback

/-- The loop body of `downsampleBuffer`: linear interpolation between the
neighbouring samples at the fractional source index `i * stride`, with the
source's `|| 0` and `|| val1` boundary fallbacks. -/
def resampleAt (buffer : List ℚ) (stride : ℚ) (i : ℕ) : ℚ :=
  let originalIndex := (i : ℚ) * stride
  let indexFloor := ⌊originalIndex⌋.toNat
  let indexCeil := ⌈originalIndex⌉.toNat
  let weight := originalIndex - ⌊originalIndex⌋
  let val1 := jsIndexOr buffer indexFloor 0
  let val2 := jsIndexOr buffer indexCeil val1
  val1 * (1 - weight) + val2 * weight

/-- The resampling helper of `AudioService` (`downsampleBuffer`): identity
when the rates agree, a thrown error for upsampling, otherwise one linear
interpolation per output index, with `Math.round` output sizing. -/
def downsampleBuffer (buffer : List ℚ) (sourceRate targetRate : ℚ) :
    Except String (List ℚ) :=
  if targetRate = sourceRate then Except.ok buffer
  else if targetRate > sourceRate then
    Except.error "Upsampling not supported in this utility"
  else
    let stride := sourceRate / targetRate
    let newLength := round ((buffer.length : ℚ) / stride)
    Except.ok ((List.range newLength.toNat).map (resampleAt buffer stride))

/-- C9: an upsampling request (target rate strictly above the source rate)
fails fast with the designated error and yields no buffer. -/
theorem upsample_fails (buffer : List ℚ) (sourceRate targetRate : ℚ)
    (h : targetRate > sourceRate) :
    downsampleBuffer buffer sourceRate targetRate =
      Except.error "Upsampling not supported in this utility" := by
  have hne : targetRate ≠ sourceRate := ne_of_gt h
  simp [downsampleBuffer, hne, h]

/-- C9 witness: asking for 96 kHz from a 48 kHz buffer raises the error. -/
theorem upsample_fails_witness :
    (96000 : ℚ) > 48000 ∧
      downsampleBuffer [1, 2] 48000 96000 =
        Except.error "Upsampling not supported in this utility" :=
  ⟨by norm_num, upsample_fails [1, 2] 48000 96000 (by norm_num)⟩

/-- Indices produced by the `Math.round` output sizing stay within the
source buffer after the stride-3 stretch. -/
theorem round_div3_lt (n i : ℕ) (hi : i < (round ((n : ℚ) / 3)).toNat) : 3 * i < n := by
  have habs := abs_sub_round ((n : ℚ) / 3)
  rw [abs_le] at habs
  have hub : (round ((n : ℚ) / 3) : ℚ) ≤ (n : ℚ) / 3 + 1 / 2 := by linarith [habs.1]
  have hiz : (i : ℤ) < round ((n : ℚ) / 3) := by
    by_contra hcon
    push_neg at hcon
    have := Int.toNat_le.mpr hcon
    omega
  have hiq : (i : ℚ) + 1 ≤ (round ((n : ℚ) / 3) : ℚ) := by
    exact_mod_cast Int.add_one_le_iff.mpr hiz
  have hq : (3 : ℚ) * i < n := by linarith
  exact_mod_cast hq

/-- On a constant buffer the stride-3 interpolation reproduces the constant
at every in-range output index. -/
theorem resampleAt_replicate (n : ℕ) (c : ℚ) (i : ℕ) (h3i : 3 * i < n) :
    resampleAt (List.replicate n c) 3 i = c := by
  have hcast : (i : ℚ) * 3 = ((3 * i : ℕ) : ℚ) := by push_cast; ring
  have hfloor : ⌊(i : ℚ) * 3⌋ = (3 * i : ℕ) := by rw [hcast]; exact Int.floor_natCast _
  have hceil : ⌈(i : ℚ) * 3⌉ = (3 * i : ℕ) := by rw [hcast]; exact Int.ceil_natCast _
  have hget : (List.replicate n c)[3 * i]? = some c := by
    rw [List.getElem?_replicate, if_pos h3i]
  have hval1 : jsIndexOr (List.replicate n c) (3 * i) 0 = c := by
    rw [jsIndexOr, hget]
    by_cases hc : c = 0
    · simp [hc]
    · simp [hc]
  have hval2 : jsIndexOr (List.replicate n c) (3 * i) c = c := by
    rw [jsIndexOr, hget]
    by_cases hc : c = 0
    · simp [hc]
    · simp [hc]
  rw [resampleAt]
  simp only [hfloor, hceil, Int.toNat_natCast, hval1, hval2]
  ring

/-- C8: downsampling a constant buffer from 48 kHz to 16 kHz reproduces the
constant in every output sample. -/
theorem downsample_constant (n : Nat) (c : ℚ) :
    downsampleBuffer (List.replicate n c) 48000 16000 =
      Except.ok (List.replicate (round ((n : ℚ) / 3)).toNat c) := by
  have hne : (16000 : ℚ) ≠ 48000 := by norm_num
  have hng : ¬ (16000 : ℚ) > 48000 := by norm_num
  have hstride : (48000 : ℚ) / 16000 = 3 := by norm_num
  rw [downsampleBuffer, if_neg hne, if_neg hng]
  simp only [hstride, List.length_replicate]
  refine congrArg Except.ok ?_
  rw [List.map_congr_left (fun i hi =>
    resampleAt_replicate n c i (round_div3_lt n i (List.mem_range.mp hi)))]
  simp [List.map_const', List.eq_replicate_iff]

end MeetingBridge
